import Mathlib

/-!
Verification of the Ambulance-logistics routing and road-damage engine.

Shallow embedding of the core of `src/pathfinding.py` (`calculate_route_metrics`,
`find_routes`) and of the damage-simulation loop of `src/main.py`
(`AmbulanceApp.block_roads`), over an explicit model of the networkx
`MultiDiGraph` the program operates on.

Modelling conventions:
- Node identifiers are natural numbers; an edge identifier is `(u, v, key)`
  exactly as in the source (`parallel_key` disambiguates parallel edges).
- Edge attributes (`length`, `highway`) become an explicit record; a missing
  `length` attribute is `Option.none` (Python `dict.get` with a default).
- Float arithmetic of the source becomes exact rational arithmetic.
- The external library calls `ox.distance.nearest_nodes` (coordinate-to-node
  resolution) and `nx.shortest_path` are out-of-repository collaborators:
  routes are quantified over the already-resolved endpoint nodes, and the
  shortest-path routine is a parameter `sp`, constrained in each theorem by
  the contract the library guarantees (a returned path is a path of the graph
  it was searched in; `none` models the `NetworkXNoPath` exception).
-/

namespace Ambulance

/-- Edge attribute record: `length` in meters when recorded, and the road
class string stored under the `highway` attribute. -/
structure EdgeData where
  length : Option ℚ
  highway : String
deriving DecidableEq

/-- Directed multigraph edge identifier `(u, v, key)`. -/
abbrev EdgeId : Type := ℕ × ℕ × ℕ

/-- Model of the networkx `MultiDiGraph`: a node list and an association list
from edge identifiers to attribute records. -/
structure Graph where
  nodes : List ℕ
  edges : List (EdgeId × EdgeData)
deriving DecidableEq

namespace Graph

/-- `graph.has_edge(u, v, key)`. -/
def hasEdge (g : Graph) (u v k : ℕ) : Bool :=
  g.edges.any fun e => e.1 = (u, v, k)

/-- `graph.has_edge(u, v)` (some parallel edge from `u` to `v` exists). -/
def hasEdgePair (g : Graph) (u v : ℕ) : Bool :=
  g.edges.any fun e => e.1.1 = u ∧ e.1.2.1 = v

/-- `graph.remove_edge(u, v, key)`: drop the edge with this identifier. -/
def removeEdge (g : Graph) (u v k : ℕ) : Graph :=
  { g with edges := g.edges.filter fun e => e.1 ≠ (u, v, k) }

/-- All parallel edges from `u` to `v` with their keys: `graph[u][v]` viewed
as a `(key, data)` list (in stored order, as networkx iterates insertion
order). -/
def edgesBetween (g : Graph) (u v : ℕ) : List (ℕ × EdgeData) :=
  (g.edges.filter fun e => e.1.1 = u ∧ e.1.2.1 = v).map fun e => (e.1.2.2, e.2)

/-- Remove every parallel edge from `u` to `v`: the inner
`for key in list(graph_alt[u][v].keys()): graph_alt.remove_edge(u, v, key)`
loop of `find_routes`. -/
def removeAllBetween (g : Graph) (u v : ℕ) : Graph :=
  { g with edges := g.edges.filter fun e => ¬(e.1.1 = u ∧ e.1.2.1 = v) }

end Graph

/-! ## calculate_route_metrics (src/pathfinding.py lines 11-27) -/

/-- Strict comparison on the `min` selection key
`lambda x: x.get('length', float('inf'))`: a missing length is `+inf`. -/
def lenKeyLt (a b : Option ℚ) : Bool :=
  match a, b with
  | none, _ => false
  | some _, none => true
  | some x, some y => decide (x < y)

/-- Python `min(..., key=...)` over a `(key, data)` list: the first element
whose selection key is minimal; `none` on the empty list (Python raises). -/
def minByLenKey : List (ℕ × EdgeData) → Option (ℕ × EdgeData)
  | [] => none
  | e :: es =>
      some (es.foldl (fun best x =>
        if lenKeyLt x.2.length best.2.length then x else best) e)

/-- Speed model of the source: 80 km/h for motorway/trunk/primary, 60 km/h
otherwise. -/
def speedFor (highway : String) : ℚ :=
  if highway = "motorway" ∨ highway = "trunk" ∨ highway = "primary" then 80 else 60

/-- Accumulation loop of `calculate_route_metrics`: total meters and total
hours over the consecutive node pairs of `route`; `none` models the KeyError
Python raises when a pair is not adjacent in `graph`. -/
def metricsAux (g : Graph) : List ℕ → Option (ℚ × ℚ)
  | [] => some (0, 0)
  | [_] => some (0, 0)
  | u :: v :: rest => do
      let e ← minByLenKey (g.edgesBetween u v)
      let dt ← metricsAux g (v :: rest)
      let length := e.2.length.getD 0
      some (length + dt.1, (length / 1000) / speedFor e.2.highway + dt.2)

/-- `calculate_route_metrics(graph, route)`: distance in km and time in
minutes. -/
def calcRouteMetrics (g : Graph) (route : List ℕ) : Option (ℚ × ℚ) :=
  (metricsAux g route).map fun dt => (dt.1 / 1000, dt.2 * 60)

/-- The parallel edge `calculate_route_metrics` selects for a consecutive
pair `(u, v)`: the first minimum-length edge among `graph[u][v]`. -/
def selEdge (g : Graph) (u v : ℕ) : Option (ℕ × EdgeData) :=
  minByLenKey (g.edgesBetween u v)

/-- Meters the selected edge of the pair `(u, v)` contributes to the total
distance (0 when its `length` attribute is missing). -/
def selLen (g : Graph) (u v : ℕ) : ℚ :=
  ((selEdge g u v).map fun e => e.2.length.getD 0).getD 0

/-- Hours the selected edge of the pair `(u, v)` contributes to the total
time. -/
def selTimeH (g : Graph) (u v : ℕ) : ℚ :=
  ((selEdge g u v).map fun e => (e.2.length.getD 0 / 1000) / speedFor e.2.highway).getD 0

/-! ## find_routes (src/pathfinding.py lines 30-90) -/

/-- A route record as returned by `find_routes`. -/
structure Route where
  name : String
  path : List ℕ
  distance_km : ℚ
  time_min : ℚ
  color : String
  rtype : String
deriving DecidableEq

/-- One iteration of the blocked-edge removal loop of `find_routes` (lines
38-44): for a blocked identifier `(u, v, key)`, remove it if present, then
remove the reverse identifier `(v, u, key)` if present. -/
def cleanStep (gc : Graph) (e : EdgeId) : Graph :=
  let gc1 := if gc.hasEdge e.1 e.2.1 e.2.2 then gc.removeEdge e.1 e.2.1 e.2.2 else gc
  if gc1.hasEdge e.2.1 e.1 e.2.2 then gc1.removeEdge e.2.1 e.1 e.2.2 else gc1

/-- The blocked-edge removal loop of `find_routes` (lines 36-44) applied to
the per-call copy `graph_clean = graph.copy()`. -/
def cleanGraph (g : Graph) (blocked : List EdgeId) : Graph :=
  blocked.foldl cleanStep g

/-- One iteration of the alternative-route removal loop (lines 69-73): drop
every parallel edge between `path[i]` and `path[i+1]` when the pair is still
connected. -/
def altStep (path : List ℕ) (ga : Graph) (i : ℕ) : Graph :=
  let u := path.getD i 0
  let v := path.getD (i + 1) 0
  if ga.hasEdgePair u v then ga.removeAllBetween u v else ga

/-- The alternative-route edge removal of `find_routes` (lines 66-73): remove
every parallel edge along the middle third of the primary path, indices
`range(mid_start, min(mid_end, len(path) - 1))`. -/
def removeMiddle (g : Graph) (path : List ℕ) : Graph :=
  let midStart := path.length / 3
  let midEnd := 2 * path.length / 3
  (List.range' midStart (min midEnd (path.length - 1) - midStart)).foldl
    (altStep path) g

/-- Shortest-path oracle type standing for `nx.shortest_path` with
`weight='length'`; `none` models the `NetworkXNoPath` exception. -/
abbrev SPOracle : Type := Graph → ℕ → ℕ → Option (List ℕ)

/-- `find_routes` after endpoint resolution: build the working graph, find the
primary path, and when it has more than 10 nodes attempt an alternative over
the middle-removed graph; the alternative route's metrics are computed over
the blocked-only working graph. The outer `Option` is `none` when an
exception other than `NetworkXNoPath` escapes (a metrics failure), which
cannot happen for oracle-valid paths. -/
def findRoutes (sp : SPOracle) (g : Graph) (startNode endNode : ℕ)
    (blocked : List EdgeId) : Option (List Route) :=
  let gclean := cleanGraph g blocked
  match sp gclean startNode endNode with
  | none => some []
  | some path =>
      match calcRouteMetrics gclean path with
      | none => none
      | some dt =>
          let routes := [⟨"Fastest Route", path, dt.1, dt.2, "#00c853", "fastest"⟩]
          if path.length > 10 then
            match sp (removeMiddle gclean path) startNode endNode with
            | none => some routes
            | some altPath =>
                if altPath ≠ path then
                  match calcRouteMetrics gclean altPath with
                  | none => none
                  | some dt2 =>
                      some (routes ++
                        [⟨"Alternative Route", altPath, dt2.1, dt2.2, "#ffa726",
                          "alternative"⟩])
                else some routes
          else some routes

/-- Consecutive node pairs of a path. -/
def pathPairs (p : List ℕ) : List (ℕ × ℕ) := p.zip p.tail

/-- Every consecutive pair of `p` is connected by some edge of `g`: the
validity guarantee `nx.shortest_path` gives for a returned path. -/
def pathPairsIn (g : Graph) (p : List ℕ) : Bool :=
  (pathPairs p).all fun uv => g.hasEdgePair uv.1 uv.2

/-- A returned path runs from `s` to `t` through edges of `g`. -/
def isPathFromTo (g : Graph) (s t : ℕ) (p : List ℕ) : Prop :=
  p.head? = some s ∧ p.getLast? = some t ∧ pathPairsIn g p = true

/-! ## block_roads damage simulation (src/main.py lines 441-493)

The loop body of `AmbulanceApp.block_roads`: per impact point, collect the
not-yet-blocked major edges whose midpoint lies within the damage radius,
sort them by distance, block the nearest randomly-many of them in both
directions, and record an impact zone with the per-impact damage count.
Randomness (`random.randint(2, 4)`) is a parameter `k` per impact. The
Euclidean distance `sqrt(dlat^2 + dlon^2)` is compared and sorted through its
square, which induces the same order and the same radius test because the
square root is strictly monotone on nonnegative reals. -/

/-- Impact zone record: `{'lat': ..., 'lon': ..., 'roads_damaged': ...}`. -/
structure ImpactZone where
  lat : ℚ
  lon : ℚ
  roads_damaged : ℕ
deriving DecidableEq

/-- Stable insertion into a list sorted ascending by the distance key
(second component): equal keys keep encounter order, as Python's stable
`sort(key=...)` does. -/
def insertByDist (p : EdgeId × ℚ) : List (EdgeId × ℚ) → List (EdgeId × ℚ)
  | [] => [p]
  | q :: qs => if p.2 < q.2 then p :: q :: qs else q :: insertByDist p qs

/-- Stable sort ascending by distance key. -/
def sortByDist (l : List (EdgeId × ℚ)) : List (EdgeId × ℚ) :=
  l.foldl (fun acc p => insertByDist p acc) []

/-- Candidate collection for one impact (lines 460-471): major edges not
already blocked whose midpoint is within `0.008` degrees of the impact point,
each paired with its squared distance. -/
def impactCandidates (y x : ℕ → ℚ) (majorEdges : List EdgeId)
    (blocked : List EdgeId) (ilat ilon : ℚ) : List (EdgeId × ℚ) :=
  majorEdges.filterMap fun e =>
    if e ∈ blocked then none
    else
      let midLat := (y e.1 + y e.2.1) / 2
      let midLon := (x e.1 + x e.2.1) / 2
      let d2 := (midLat - ilat) ^ 2 + (midLon - ilon) ^ 2
      if d2 ≤ (8 / 1000 : ℚ) ^ 2 then some (e, d2) else none

/-- Blocking loop over the selected nearest edges (lines 476-489): block the
forward direction when not already blocked, then the reverse direction when
it exists in the network and is not already blocked, counting each newly
blocked direction. -/
def blockEdgesAux (g : Graph) : List EdgeId → List EdgeId × ℕ → List EdgeId × ℕ
  | [], acc => acc
  | e :: rest, acc =>
      let acc1 := if e ∈ acc.1 then acc else (acc.1 ++ [e], acc.2 + 1)
      let rev : EdgeId := (e.2.1, e.1, e.2.2)
      let acc2 :=
        if g.hasEdge e.2.1 e.1 e.2.2 ∧ rev ∉ acc1.1 then (acc1.1 ++ [rev], acc1.2 + 1)
        else acc1
      blockEdgesAux g rest acc2

/-- One impact of `block_roads`: select the `k` nearest candidates and block
them (both directions); returns the grown blocked list and this impact's
damage count (`blocked_count`). -/
def processImpact (g : Graph) (y x : ℕ → ℚ) (majorEdges : List EdgeId)
    (blocked : List EdgeId) (ilat ilon : ℚ) (k : ℕ) : List EdgeId × ℕ :=
  let nearby := sortByDist (impactCandidates y x majorEdges blocked ilat ilon)
  blockEdgesAux g ((nearby.take k).map fun p => p.1) (blocked, 0)

/-- One iteration of the outer impact loop: process the impact against the
current blocked list and record its `ImpactZone`. -/
def blockStep (g : Graph) (y x : ℕ → ℚ) (majorEdges : List EdgeId)
    (acc : List EdgeId × List ImpactZone) (imp : ℚ × ℚ × ℕ) :
    List EdgeId × List ImpactZone :=
  let res := processImpact g y x majorEdges acc.1 imp.1 imp.2.1 imp.2.2
  (res.1, acc.2 ++ [⟨imp.1, imp.2.1, res.2⟩])

/-- The whole `block_roads` batch: the blocked list is reset to empty, then
each impact `(lat, lon, k)` is processed in order and an `ImpactZone` with
its damage count is recorded. -/
def blockRoads (g : Graph) (y x : ℕ → ℚ) (majorEdges : List EdgeId)
    (impacts : List (ℚ × ℚ × ℕ)) : List EdgeId × List ImpactZone :=
  impacts.foldl (blockStep g y x majorEdges) ([], [])

/-- The call boundary of `find_routes` with the caller's network object
threaded through explicitly: the function copies `graph` (`graph.copy()`,
line 36) and performs every removal on the copies `graph_clean` / `graph_alt`,
so the network variable the caller handed in is returned as it was bound at
entry, never reassigned or written through. -/
def findRoutesCall (sp : SPOracle) (graph : Graph) (startNode endNode : ℕ)
    (blocked : List EdgeId) : Option (List Route) × Graph :=
  (findRoutes sp graph startNode endNode blocked, graph)

/-! ## Concrete fixtures used to instantiate the theorems -/

/-- A simple oracle satisfying the `nx.shortest_path` contract: a direct edge
path when one exists, `NetworkXNoPath` otherwise. -/
def spGuard : SPOracle := fun g a b =>
  if g.hasEdgePair a b then some [a, b] else none

/-- Two-node network with a two-way street (both stored directions). -/
def gC1 : Graph :=
  ⟨[0, 1], [((0, 1, 0), ⟨some 100, "primary"⟩), ((1, 0, 0), ⟨some 100, "primary"⟩)]⟩

/-- Two-node network with a single one-way street. -/
def gOne : Graph := ⟨[0, 1], [((0, 1, 0), ⟨some 100, "secondary"⟩)]⟩

/-- Two parallel edges between the same nodes, one without a recorded
length. -/
def gMix : Graph :=
  ⟨[0, 1], [((0, 1, 0), ⟨none, "secondary"⟩), ((0, 1, 1), ⟨some 700, "primary"⟩)]⟩

/-- Two parallel edges 0→1; blocking key 0 leaves key 1 available. -/
def gPar : Graph :=
  ⟨[0, 1], [((0, 1, 0), ⟨some 100, "secondary"⟩), ((0, 1, 1), ⟨some 200, "secondary"⟩)]⟩

/-- The working graph obtained from `gPar` after blocking key 0. -/
def gParC : Graph := ⟨[0, 1], [((0, 1, 1), ⟨some 200, "secondary"⟩)]⟩

/-- A 0-1-…-10 chain of 1000 m secondary segments. -/
def chainEdges : List (EdgeId × EdgeData) :=
  [((0, 1, 0), ⟨some 1000, "secondary"⟩), ((1, 2, 0), ⟨some 1000, "secondary"⟩),
   ((2, 3, 0), ⟨some 1000, "secondary"⟩), ((3, 4, 0), ⟨some 1000, "secondary"⟩),
   ((4, 5, 0), ⟨some 1000, "secondary"⟩), ((5, 6, 0), ⟨some 1000, "secondary"⟩),
   ((6, 7, 0), ⟨some 1000, "secondary"⟩), ((7, 8, 0), ⟨some 1000, "secondary"⟩),
   ((8, 9, 0), ⟨some 1000, "secondary"⟩), ((9, 10, 0), ⟨some 1000, "secondary"⟩)]

/-- Eleven-node chain with a two-edge bypass 3→11→7 around the middle. -/
def gC4 : Graph :=
  ⟨[0, 1, 2, 3, 4, 5, 6, 7, 8, 9, 10, 11],
   chainEdges ++
     [((3, 11, 0), ⟨some 1000, "secondary"⟩), ((11, 7, 0), ⟨some 1000, "secondary"⟩)]⟩

/-- The 11-node primary path 0,1,…,10 through `gC4`. -/
def pathC4 : List ℕ := [0, 1, 2, 3, 4, 5, 6, 7, 8, 9, 10]

/-- The bypass path through `gC4` avoiding its middle chain segment. -/
def altC4 : List ℕ := [0, 1, 2, 3, 11, 7, 8, 9, 10]

/-- Oracle for the `gC4` scenario: the chain on the untouched working graph,
the bypass once the middle segment has been removed. -/
def spC4 : SPOracle := fun G _ _ => if G = gC4 then some pathC4 else some altC4

/-! ## Helper lemmas about the working graphs -/

theorem hasEdge_iff {g : Graph} {u v k : ℕ} :
    g.hasEdge u v k = true ↔ ∃ a ∈ g.edges, a.1 = (u, v, k) := by
  simp [Graph.hasEdge, List.any_eq_true]

theorem hasEdgePair_iff {g : Graph} {u v : ℕ} :
    g.hasEdgePair u v = true ↔ ∃ a ∈ g.edges, a.1.1 = u ∧ a.1.2.1 = v := by
  simp [Graph.hasEdgePair, List.any_eq_true]

theorem mem_edges_removeEdge {g : Graph} {u v k : ℕ} {a : EdgeId × EdgeData}
    (h : a ∈ (g.removeEdge u v k).edges) : a ∈ g.edges :=
  (List.mem_filter.mp h).1

theorem mem_edges_condRemove {g : Graph} {u v k : ℕ} {a : EdgeId × EdgeData}
    (h : a ∈ (if g.hasEdge u v k then g.removeEdge u v k else g).edges) :
    a ∈ g.edges ∧ a.1 ≠ (u, v, k) := by
  split at h
  · refine ⟨mem_edges_removeEdge h, ?_⟩
    have hp := (List.mem_filter.mp h).2
    simpa using hp
  · next hne =>
      refine ⟨h, fun heq => hne (hasEdge_iff.mpr ⟨a, h, heq⟩)⟩

theorem cleanStep_spec {g : Graph} {e : EdgeId} {a : EdgeId × EdgeData}
    (h : a ∈ (cleanStep g e).edges) :
    a ∈ g.edges ∧ a.1 ≠ e ∧ a.1 ≠ (e.2.1, e.1, e.2.2) := by
  obtain ⟨u, v, k⟩ := e
  simp only [cleanStep] at h
  obtain ⟨h1, hrev⟩ := mem_edges_condRemove h
  obtain ⟨h2, hfwd⟩ := mem_edges_condRemove h1
  exact ⟨h2, hfwd, hrev⟩

theorem cleanStep_nodes (g : Graph) (e : EdgeId) : (cleanStep g e).nodes = g.nodes := by
  simp only [cleanStep]
  split <;> split <;> rfl

theorem mem_edges_cleanGraph {g : Graph} {l : List EdgeId} {a : EdgeId × EdgeData}
    (h : a ∈ (cleanGraph g l).edges) : a ∈ g.edges := by
  induction l generalizing g with
  | nil => exact h
  | cons e rest ih => exact (cleanStep_spec (ih h)).1

theorem cleanGraph_nodes (g : Graph) (l : List EdgeId) :
    (cleanGraph g l).nodes = g.nodes := by
  induction l generalizing g with
  | nil => rfl
  | cons e rest ih =>
      calc (cleanGraph g (e :: rest)).nodes
          = (cleanGraph (cleanStep g e) rest).nodes := rfl
        _ = (cleanStep g e).nodes := ih (cleanStep g e)
        _ = g.nodes := cleanStep_nodes g e

theorem cleanGraph_not_blocked {g : Graph} {l : List EdgeId} {a : EdgeId × EdgeData}
    (h : a ∈ (cleanGraph g l).edges) :
    ∀ e ∈ l, a.1 ≠ e ∧ a.1 ≠ (e.2.1, e.1, e.2.2) := by
  induction l generalizing g with
  | nil => intro e he; cases he
  | cons e rest ih =>
      intro f hf
      rcases List.mem_cons.mp hf with rfl | hf2
      · have hmem : a ∈ (cleanStep g f).edges := mem_edges_cleanGraph h
        exact ⟨(cleanStep_spec hmem).2.1, (cleanStep_spec hmem).2.2⟩
      · exact ih h f hf2

theorem cleanGraph_hasEdge_false {g : Graph} {l : List EdgeId} {u v k : ℕ}
    (h : (u, v, k) ∈ l) :
    (cleanGraph g l).hasEdge u v k = false ∧ (cleanGraph g l).hasEdge v u k = false := by
  constructor <;>
  · simp only [Bool.eq_false_iff, Ne, hasEdge_iff]
    rintro ⟨a, ha, heq⟩
    have h2 := cleanGraph_not_blocked ha (u, v, k) h
    first
      | exact h2.1 heq
      | exact h2.2 heq

theorem mem_edges_foldl_step {α : Type} (f : Graph → α → Graph)
    (hf : ∀ g b, ∀ x ∈ (f g b).edges, x ∈ g.edges) :
    ∀ (l : List α) (g : Graph), ∀ x ∈ (l.foldl f g).edges, x ∈ g.edges := by
  intro l
  induction l with
  | nil => intro g x hx; exact hx
  | cons b rest ih => intro g x hx; exact hf g b x (ih (f g b) x hx)

theorem mem_edges_altStep {p : List ℕ} {g : Graph} {i : ℕ} {a : EdgeId × EdgeData}
    (h : a ∈ (altStep p g i).edges) : a ∈ g.edges := by
  simp only [altStep] at h
  split at h
  · exact (List.mem_filter.mp h).1
  · exact h

theorem mem_edges_removeMiddle {g : Graph} {p : List ℕ} {a : EdgeId × EdgeData}
    (h : a ∈ (removeMiddle g p).edges) : a ∈ g.edges := by
  simp only [removeMiddle] at h
  exact mem_edges_foldl_step (altStep p) (fun g b x hx => mem_edges_altStep hx) _ g a h

theorem hasEdgePair_of_subset {g g' : Graph} (hsub : ∀ x ∈ g.edges, x ∈ g'.edges)
    {u v : ℕ} (h : g.hasEdgePair u v = true) : g'.hasEdgePair u v = true := by
  obtain ⟨a, ha, hp⟩ := hasEdgePair_iff.mp h
  exact hasEdgePair_iff.mpr ⟨a, hsub a ha, hp⟩

theorem pathPairsIn_of_subset {g g' : Graph} (hsub : ∀ x ∈ g.edges, x ∈ g'.edges)
    {p : List ℕ} (h : pathPairsIn g p = true) : pathPairsIn g' p = true := by
  simp only [pathPairsIn, List.all_eq_true] at h ⊢
  intro uv huv
  exact hasEdgePair_of_subset hsub (h uv huv)

theorem cleanStep_eq_of_absent {g : Graph} {u v k : ℕ}
    (hf : g.hasEdge u v k = false) (hr : g.hasEdge v u k = false) :
    cleanStep g (u, v, k) = g := by
  simp [cleanStep, hf, hr]

theorem hasEdge_false_mono {g g' : Graph} (hsub : ∀ a ∈ g'.edges, a ∈ g.edges)
    {u v k : ℕ} (h : g.hasEdge u v k = false) : g'.hasEdge u v k = false := by
  simp only [Bool.eq_false_iff, Ne, hasEdge_iff] at h ⊢
  rintro ⟨a, ha, heq⟩
  exact h ⟨a, hsub a ha, heq⟩

theorem cleanGraph_insert_noop :
    ∀ (l1 : List EdgeId) (g : Graph) (u v k : ℕ),
      g.hasEdge u v k = false → g.hasEdge v u k = false →
      ∀ l2 : List EdgeId,
        cleanGraph g (l1 ++ (u, v, k) :: l2) = cleanGraph g (l1 ++ l2) := by
  intro l1
  induction l1 with
  | nil =>
      intro g u v k hf hr l2
      show cleanGraph (cleanStep g (u, v, k)) l2 = cleanGraph g l2
      rw [cleanStep_eq_of_absent hf hr]
  | cons e rest ih =>
      intro g u v k hf hr l2
      show cleanGraph (cleanStep g e) (rest ++ (u, v, k) :: l2)
          = cleanGraph (cleanStep g e) (rest ++ l2)
      exact ih (cleanStep g e) u v k
        (hasEdge_false_mono (fun a ha => (cleanStep_spec ha).1) hf)
        (hasEdge_false_mono (fun a ha => (cleanStep_spec ha).1) hr) l2

/-! ## Helper lemmas about edge selection and metrics -/

theorem foldl_minPick_mem (xs : List (ℕ × EdgeData)) :
    ∀ best : ℕ × EdgeData,
      (xs.foldl (fun b x => if lenKeyLt x.2.length b.2.length then x else b) best)
          = best ∨
      (xs.foldl (fun b x => if lenKeyLt x.2.length b.2.length then x else b) best)
          ∈ xs := by
  induction xs with
  | nil => intro best; left; rfl
  | cons y ys ih =>
      intro best
      simp only [List.foldl_cons]
      rcases ih (if lenKeyLt y.2.length best.2.length then y else best) with h | h
      · rw [h]
        split
        · right; exact List.mem_cons_self _ _
        · left; rfl
      · right; exact List.mem_cons_of_mem _ h

theorem minByLenKey_mem {l : List (ℕ × EdgeData)} {e : ℕ × EdgeData}
    (h : minByLenKey l = some e) : e ∈ l := by
  cases l with
  | nil => cases h
  | cons x xs =>
      simp only [minByLenKey, Option.some.injEq] at h
      rw [← h]
      rcases foldl_minPick_mem xs x with h2 | h2
      · rw [h2]; exact List.mem_cons_self x xs
      · exact List.mem_cons_of_mem x h2

theorem minByLenKey_isSome {l : List (ℕ × EdgeData)} (h : l ≠ []) :
    ∃ e, minByLenKey l = some e := by
  cases l with
  | nil => exact absurd rfl h
  | cons x xs => exact ⟨_, rfl⟩

theorem lenKeyLt_none_false (b : Option ℚ) : lenKeyLt none b = false := rfl

theorem lenKeyLt_some_none (x : ℚ) : lenKeyLt (some x) none = true := rfl

theorem foldl_minPick_some_length (xs : List (ℕ × EdgeData)) :
    ∀ best : ℕ × EdgeData,
      (best.2.length ≠ none ∨ ∃ x ∈ xs, x.2.length ≠ none) →
      (xs.foldl (fun b x =>
        if lenKeyLt x.2.length b.2.length then x else b) best).2.length ≠ none := by
  induction xs with
  | nil =>
      intro best h
      rcases h with h | ⟨x, hx, _⟩
      · exact h
      · cases hx
  | cons y ys ih =>
      intro best h
      simp only [List.foldl_cons]
      apply ih
      rcases h with hbest | ⟨x, hx, hxlen⟩
      · left
        split
        · next hlt =>
            cases hy : y.2.length with
            | none => rw [hy, lenKeyLt_none_false] at hlt; cases hlt
            | some q => simp [hy]
        · exact hbest
      · rcases List.mem_cons.mp hx with rfl | hx2
        · left
          split
          · exact hxlen
          · next hnlt =>
              cases hb : best.2.length with
              | some q => simp [hb]
              | none =>
                  cases hy : x.2.length with
                  | none => exact absurd hy hxlen
                  | some q => rw [hy, hb, lenKeyLt_some_none] at hnlt; exact absurd rfl hnlt
        · right; exact ⟨x, hx2, hxlen⟩

theorem minByLenKey_prefers_recorded {l : List (ℕ × EdgeData)} {e : ℕ × EdgeData}
    (hl : ∃ x ∈ l, x.2.length ≠ none) (h : minByLenKey l = some e) :
    e.2.length ≠ none := by
  cases l with
  | nil => cases h
  | cons x xs =>
      simp only [minByLenKey, Option.some.injEq] at h
      rw [← h]
      apply foldl_minPick_some_length
      obtain ⟨z, hz, hzlen⟩ := hl
      rcases List.mem_cons.mp hz with rfl | hz2
      · exact Or.inl hzlen
      · exact Or.inr ⟨z, hz2, hzlen⟩

theorem mem_edgesBetween {g : Graph} {u v : ℕ} {x : ℕ × EdgeData}
    (h : x ∈ g.edgesBetween u v) : ((u, v, x.1), x.2) ∈ g.edges := by
  simp only [Graph.edgesBetween, List.mem_map] at h
  obtain ⟨a, ha, rfl⟩ := h
  obtain ⟨⟨a1, a2, a3⟩, ad⟩ := a
  have ha2 := (List.mem_filter.mp ha).1
  have hp := (List.mem_filter.mp ha).2
  obtain ⟨h1, h2⟩ : a1 = u ∧ a2 = v := by simpa using hp
  rw [← h1, ← h2]
  exact ha2

theorem edgesBetween_ne_nil {g : Graph} {u v : ℕ} (h : g.hasEdgePair u v = true) :
    g.edgesBetween u v ≠ [] := by
  obtain ⟨a, ha, h1, h2⟩ := hasEdgePair_iff.mp h
  intro hnil
  have : a ∈ g.edges.filter fun e => e.1.1 = u ∧ e.1.2.1 = v :=
    List.mem_filter.mpr ⟨ha, by simp [h1, h2]⟩
  rw [show (g.edges.filter fun e => e.1.1 = u ∧ e.1.2.1 = v) = [] by
        simpa [Graph.edgesBetween] using hnil] at this
  cases this

theorem selEdge_isSome {g : Graph} {u v : ℕ} (h : g.hasEdgePair u v = true) :
    ∃ e, selEdge g u v = some e :=
  minByLenKey_isSome (edgesBetween_ne_nil h)

theorem selEdge_mem_edges {g : Graph} {u v : ℕ} {e : ℕ × EdgeData}
    (h : selEdge g u v = some e) : ((u, v, e.1), e.2) ∈ g.edges :=
  mem_edgesBetween (minByLenKey_mem h)

theorem metricsAux_eq_sums {g : Graph} :
    ∀ {p : List ℕ}, pathPairsIn g p = true →
      metricsAux g p = some
        (((pathPairs p).map fun uv => selLen g uv.1 uv.2).sum,
         ((pathPairs p).map fun uv => selTimeH g uv.1 uv.2).sum) := by
  intro p
  induction p with
  | nil => intro _; rfl
  | cons u rest ih =>
      cases rest with
      | nil => intro _; rfl
      | cons v rest2 =>
          intro hp
          have hdec : g.hasEdgePair u v = true ∧ pathPairsIn g (v :: rest2) = true := by
            simpa [pathPairsIn, pathPairs] using hp
          obtain ⟨e, he⟩ := selEdge_isSome hdec.1
          have hrest := ih hdec.2
          simp only [metricsAux, selEdge] at he ⊢
          rw [he, hrest]
          simp only [Option.bind_eq_bind, Option.some_bind]
          have hsel : selLen g u v = e.2.length.getD 0 ∧
              selTimeH g u v = (e.2.length.getD 0 / 1000) / speedFor e.2.highway := by
            simp [selLen, selTimeH, selEdge, he]
          simp [pathPairs, hsel.1, hsel.2]

/-! ## Helper lemmas about the fixtures and nonnegativity -/

theorem spGuard_valid (G : Graph) (a b : ℕ) (p : List ℕ)
    (h : spGuard G a b = some p) : pathPairsIn G p = true := by
  simp only [spGuard] at h
  split at h
  · next hpair =>
      injection h with h2
      subst h2
      simpa [pathPairsIn, pathPairs] using hpair
  · cases h

theorem spGuard_sound (G : Graph) (a b : ℕ) (p : List ℕ)
    (h : spGuard G a b = some p) : isPathFromTo G a b p := by
  simp only [spGuard] at h
  split at h
  · next hpair =>
      injection h with h2
      subst h2
      exact ⟨rfl, rfl, by simpa [pathPairsIn, pathPairs] using hpair⟩
  · cases h

theorem no_path_of_no_edges {G : Graph} (hE : G.edges = []) {s t : ℕ} (hst : s ≠ t) :
    ∀ p, ¬ isPathFromTo G s t p := by
  rintro p ⟨hhead, hlast, hpairs⟩
  match p with
  | [] => cases hhead
  | [a] =>
      apply hst
      have h1 : a = s := by simpa using hhead
      have h2 : a = t := by simpa using hlast
      rw [← h1, ← h2]
  | a :: b :: r =>
      have hab : G.hasEdgePair a b = true := by
        have := by simpa [pathPairsIn, pathPairs] using hpairs
        exact this.1
      rw [Graph.hasEdgePair, hE] at hab
      cases hab

theorem speedFor_pos (h : String) : 0 < speedFor h := by
  unfold speedFor
  split <;> norm_num

theorem selLen_nonneg {g : Graph} (hlen : ∀ a ∈ g.edges, 0 ≤ a.2.length.getD 0)
    (u v : ℕ) : 0 ≤ selLen g u v := by
  cases he : selEdge g u v with
  | none => simp [selLen, he]
  | some e =>
      have := hlen _ (selEdge_mem_edges he)
      simpa [selLen, he] using this

theorem selTimeH_nonneg {g : Graph} (hlen : ∀ a ∈ g.edges, 0 ≤ a.2.length.getD 0)
    (u v : ℕ) : 0 ≤ selTimeH g u v := by
  cases he : selEdge g u v with
  | none => simp [selTimeH, he]
  | some e =>
      have h0 : (0 : ℚ) ≤ e.2.length.getD 0 := by
        simpa using hlen _ (selEdge_mem_edges he)
      have hs := speedFor_pos e.2.highway
      simp only [selTimeH, he, Option.map_some', Option.getD_some]
      exact div_nonneg (div_nonneg h0 (by norm_num)) hs.le

/-! ## Claim theorems -/

/-- C1, counterexample: the claim that `find_routes` performs no
reverse-direction removal is false. In the two-way network `gC1`, the edge
`(1,0,0)` is present and not in the blocked set `[(0,1,0)]`, yet it does not
remain in the working graph: the removal loop also removes the reverse of
every blocked identifier. -/
theorem findRoutes_reverse_removal_cex :
    gC1.hasEdge 1 0 0 = true ∧
    ((1, 0, 0) : EdgeId) ∉ [((0, 1, 0) : EdgeId)] ∧
    (cleanGraph gC1 [(0, 1, 0)]).hasEdge 1 0 0 = false := by decide

/-- C1, amended: when building its working graph, `find_routes` removes every
directed edge `(u, v, key)` present in the blocked set and, in addition, the
reverse-direction edge `(v, u, key)` whenever it exists in the graph — the
removal is bidirectional, not forward-only. -/
theorem cleanGraph_removes_both_directions (g : Graph) (blocked : List EdgeId)
    (u v k : ℕ) (h : (u, v, k) ∈ blocked) :
    (cleanGraph g blocked).hasEdge u v k = false ∧
    (cleanGraph g blocked).hasEdge v u k = false :=
  cleanGraph_hasEdge_false h

/-- Witness for the amended C1 at a concrete input. -/
theorem cleanGraph_removes_both_directions_witness :
    (cleanGraph gC1 [(0, 1, 0)]).hasEdge 0 1 0 = false ∧
    (cleanGraph gC1 [(0, 1, 0)]).hasEdge 1 0 0 = false :=
  cleanGraph_removes_both_directions gC1 [(0, 1, 0)] 0 1 0 (by decide)

/-- C3: when no path from the resolved start node to the resolved end node
exists in the working graph (network minus blocked edges), `find_routes`
returns the empty sequence as a normal value (`some []` — the
`NetworkXNoPath` exception is caught inside and never escapes; an escaping
exception would be the outer `none`). The oracle hypothesis is the
`nx.shortest_path` contract: any returned path is a path of the working
graph from start to end. -/
theorem findRoutes_no_path_empty (sp : SPOracle) (g : Graph) (s t : ℕ)
    (blocked : List EdgeId)
    (hsound : ∀ p, sp (cleanGraph g blocked) s t = some p →
        isPathFromTo (cleanGraph g blocked) s t p)
    (hnopath : ∀ p, ¬ isPathFromTo (cleanGraph g blocked) s t p) :
    findRoutes sp g s t blocked = some [] := by
  have hnone : sp (cleanGraph g blocked) s t = none := by
    cases hsp : sp (cleanGraph g blocked) s t with
    | none => rfl
    | some p => exact absurd (hsound p hsp) (hnopath p)
  simp [findRoutes, hnone]

/-- Witness for C3: all edges of the one-way network blocked, so the working
graph has no edges and no 0→1 path; the result is `some []`. -/
theorem findRoutes_no_path_empty_witness :
    findRoutes spGuard gOne 0 1 [(0, 1, 0)] = some [] :=
  findRoutes_no_path_empty spGuard gOne 0 1 [(0, 1, 0)]
    (fun p => spGuard_sound _ 0 1 p)
    (no_path_of_no_edges (by decide) (by decide))

/-- C5: when the primary path found has at most 10 nodes, `find_routes`
returns exactly one route, labeled `fastest` and carrying that path; the
alternative computation is only attempted for paths of more than 10 nodes. -/
theorem findRoutes_short_path_single (sp : SPOracle) (g : Graph) (s t : ℕ)
    (blocked : List EdgeId) (path : List ℕ) (routes : List Route)
    (hsp : sp (cleanGraph g blocked) s t = some path)
    (hlen : path.length ≤ 10)
    (hres : findRoutes sp g s t blocked = some routes) :
    routes.length = 1 ∧ ∀ r ∈ routes, r.rtype = "fastest" ∧ r.path = path := by
  simp only [findRoutes, hsp] at hres
  split at hres
  · exact Option.noConfusion hres
  · rw [if_neg (by omega : ¬ path.length > 10)] at hres
    injection hres with h
    subst h
    exact ⟨rfl, by simp⟩

/-- Witness for C5: a direct 2-node path on `gC1`. -/
theorem findRoutes_short_path_single_witness :
    ([⟨"Fastest Route", [0, 1], 1/10, 3/40, "#00c853", "fastest"⟩] : List Route).length = 1 ∧
    ∀ r ∈ ([⟨"Fastest Route", [0, 1], 1/10, 3/40, "#00c853", "fastest"⟩] : List Route),
      r.rtype = "fastest" ∧ r.path = [0, 1] :=
  findRoutes_short_path_single spGuard gC1 0 1 [] [0, 1] _
    (by decide) (by decide)
    (by norm_num [findRoutes, cleanGraph, spGuard, calcRouteMetrics, metricsAux,
          minByLenKey, Graph.edgesBetween, Graph.hasEdgePair, gC1, speedFor,
          List.filter, List.foldl])

/-- C8: a blocked entry `(u, v, key)` such that neither it nor its reverse
exists in the network is a no-op for `find_routes`: the working graph and
the returned routes are the same as if the entry were absent from the
blocked set, and no error value is produced beyond what the remaining set
yields. -/
theorem findRoutes_stale_blocked_noop (sp : SPOracle) (g : Graph) (s t : ℕ)
    (u v k : ℕ) (l1 l2 : List EdgeId)
    (hf : g.hasEdge u v k = false) (hr : g.hasEdge v u k = false) :
    cleanGraph g (l1 ++ (u, v, k) :: l2) = cleanGraph g (l1 ++ l2) ∧
    findRoutes sp g s t (l1 ++ (u, v, k) :: l2) = findRoutes sp g s t (l1 ++ l2) := by
  have hclean := cleanGraph_insert_noop l1 g u v k hf hr l2
  exact ⟨hclean, by simp only [findRoutes, hclean]⟩

/-- Witness for C8: blocking the absent edge `(5,6,7)` alongside `(0,1,0)`
changes nothing relative to blocking `(0,1,0)` alone. -/
theorem findRoutes_stale_blocked_noop_witness :
    cleanGraph gC1 ([] ++ (5, 6, 7) :: [(0, 1, 0)]) = cleanGraph gC1 ([] ++ [(0, 1, 0)]) ∧
    findRoutes spGuard gC1 0 1 ([] ++ (5, 6, 7) :: [(0, 1, 0)]) =
      findRoutes spGuard gC1 0 1 ([] ++ [(0, 1, 0)]) :=
  findRoutes_stale_blocked_noop spGuard gC1 0 1 5 6 7 [] [(0, 1, 0)]
    (by decide) (by decide)

/-- C9: `find_routes` never mutates the road network it is given: with the
caller's network object threaded through the call, the network returned
after the call is the very value passed in (same node set, same edge set,
same attributes), and the working graphs actually edited are per-call copies
whose node set matches and whose edge set only shrinks. -/
theorem findRoutes_no_mutation (sp : SPOracle) (g : Graph) (s t : ℕ)
    (blocked : List EdgeId) :
    (findRoutesCall sp g s t blocked).2 = g ∧
    (findRoutesCall sp g s t blocked).2.nodes = g.nodes ∧
    (findRoutesCall sp g s t blocked).2.edges = g.edges ∧
    (cleanGraph g blocked).nodes = g.nodes ∧
    (∀ a ∈ (cleanGraph g blocked).edges, a ∈ g.edges) ∧
    ∀ p : List ℕ, ∀ a ∈ (removeMiddle (cleanGraph g blocked) p).edges,
      a ∈ (cleanGraph g blocked).edges :=
  ⟨rfl, rfl, rfl, cleanGraph_nodes g blocked,
   fun _ ha => mem_edges_cleanGraph ha,
   fun _ _ ha => mem_edges_removeMiddle ha⟩

/-- Witness for C9 at a concrete call. -/
theorem findRoutes_no_mutation_witness :
    (findRoutesCall spGuard gC1 0 1 [(0, 1, 0)]).2 = gC1 ∧
    (findRoutesCall spGuard gC1 0 1 [(0, 1, 0)]).2.nodes = gC1.nodes ∧
    (findRoutesCall spGuard gC1 0 1 [(0, 1, 0)]).2.edges = gC1.edges ∧
    (cleanGraph gC1 [(0, 1, 0)]).nodes = gC1.nodes ∧
    (∀ a ∈ (cleanGraph gC1 [(0, 1, 0)]).edges, a ∈ gC1.edges) ∧
    ∀ p : List ℕ, ∀ a ∈ (removeMiddle (cleanGraph gC1 [(0, 1, 0)]) p).edges,
      a ∈ (cleanGraph gC1 [(0, 1, 0)]).edges :=
  findRoutes_no_mutation spGuard gC1 0 1 [(0, 1, 0)]

/-- C2: no route returned by `find_routes` traverses a blocked edge: every
edge of the working graph carries an identifier outside the blocked set, and
every consecutive node pair of every returned route's path is connected in
the working graph (so the edge used for that pair — in particular the
minimum-length parallel edge the metrics select — is never a blocked
identifier). The oracle hypothesis is the `nx.shortest_path` contract that a
returned path is a path of the graph searched. -/
theorem findRoutes_avoids_blocked (sp : SPOracle) (g : Graph) (s t : ℕ)
    (blocked : List EdgeId) (routes : List Route)
    (hval : ∀ G p, sp G s t = some p → pathPairsIn G p = true)
    (hres : findRoutes sp g s t blocked = some routes) :
    (∀ a ∈ (cleanGraph g blocked).edges, a.1 ∉ blocked) ∧
    ∀ r ∈ routes, pathPairsIn (cleanGraph g blocked) r.path = true := by
  refine ⟨fun a ha hmem => (cleanGraph_not_blocked ha a.1 hmem).1 rfl, ?_⟩
  simp only [findRoutes] at hres
  split at hres
  · injection hres with h
    subst h
    intro r hr
    cases hr
  · next path hsp =>
      have hprim : pathPairsIn (cleanGraph g blocked) path = true := hval _ _ hsp
      split at hres
      · exact Option.noConfusion hres
      · split at hres
        · split at hres
          · injection hres with h
            subst h
            intro r hr
            rw [List.mem_singleton] at hr
            subst hr
            exact hprim
          · next altPath halt =>
              split at hres
              · split at hres
                · exact Option.noConfusion hres
                · injection hres with h
                  subst h
                  intro r hr
                  simp only [List.cons_append, List.nil_append, List.mem_cons,
                    List.not_mem_nil, or_false] at hr
                  rcases hr with rfl | rfl
                  · exact hprim
                  · exact pathPairsIn_of_subset
                      (fun a ha => mem_edges_removeMiddle ha) (hval _ _ halt)
              · injection hres with h
                subst h
                intro r hr
                rw [List.mem_singleton] at hr
                subst hr
                exact hprim
        · injection hres with h
          subst h
          intro r hr
          rw [List.mem_singleton] at hr
          subst hr
          exact hprim

/-- Witness for C2: on `gPar` with key 0 blocked, the returned route runs
over the surviving parallel edge only. -/
theorem findRoutes_avoids_blocked_witness :
    (∀ a ∈ (cleanGraph gPar [(0, 1, 0)]).edges, a.1 ∉ [((0, 1, 0) : EdgeId)]) ∧
    ∀ r ∈ ([⟨"Fastest Route", [0, 1], 1/5, 1/5, "#00c853", "fastest"⟩] : List Route),
      pathPairsIn (cleanGraph gPar [(0, 1, 0)]) r.path = true :=
  findRoutes_avoids_blocked spGuard gPar 0 1 [(0, 1, 0)] _
    (fun G p h => spGuard_valid G 0 1 p h)
    (by
      have hcg : cleanGraph gPar [(0, 1, 0)] = gParC := by decide
      have hsp : spGuard gParC 0 1 = some [0, 1] := by decide
      have hmet : calcRouteMetrics gParC [0, 1] = some (1/5, 1/5) := by
        norm_num [calcRouteMetrics, metricsAux, minByLenKey, Graph.edgesBetween,
          gParC, speedFor, lenKeyLt,
          (by decide : ¬("secondary" = "motorway" ∨ "secondary" = "trunk" ∨
            "secondary" = "primary"))]
      norm_num [findRoutes, hcg, hsp, hmet])

/-- C4: whenever `find_routes` returns a second route, that route's path
differs from the primary path, it is labeled `alternative`, and its reported
distance and time are exactly the metrics computed over the blocked-only
working graph (`graph_clean`), not over the graph that additionally had the
primary path's middle segment removed. -/
theorem findRoutes_alternative_metrics (sp : SPOracle) (g : Graph) (s t : ℕ)
    (blocked : List EdgeId) (r1 r2 : Route) (rest : List Route)
    (hres : findRoutes sp g s t blocked = some (r1 :: r2 :: rest)) :
    r2.path ≠ r1.path ∧ r1.rtype = "fastest" ∧ r2.rtype = "alternative" ∧
    calcRouteMetrics (cleanGraph g blocked) r2.path =
      some (r2.distance_km, r2.time_min) := by
  simp only [findRoutes] at hres
  split at hres
  · simp at hres
  · next path hsp =>
      split at hres
      · exact Option.noConfusion hres
      · split at hres
        · split at hres
          · simp at hres
          · next altPath halt =>
              split at hres
              · next hne =>
                  split at hres
                  · exact Option.noConfusion hres
                  · next dt2 hmet2 =>
                      injection hres with h
                      obtain ⟨h1, h2, -⟩ : _ ∧ _ ∧ rest = [] := by
                        simpa using h
                      subst h1
                      subst h2
                      exact ⟨hne, rfl, rfl, by simpa using hmet2⟩
              · simp at hres
        · simp at hres

/-- Witness for C4: the 11-node chain scenario on `gC4`, whose alternative
bypass has its 8 km / 8 min metrics computed over the blocked-only graph. -/
theorem findRoutes_alternative_metrics_witness :
    (altC4 ≠ pathC4 ∧
      (⟨"Fastest Route", pathC4, 10, 10, "#00c853", "fastest"⟩ : Route).rtype
        = "fastest" ∧
      (⟨"Alternative Route", altC4, 8, 8, "#ffa726", "alternative"⟩ : Route).rtype
        = "alternative" ∧
      calcRouteMetrics (cleanGraph gC4 [])
          (⟨"Alternative Route", altC4, 8, 8, "#ffa726", "alternative"⟩ : Route).path =
        some (8, 8)) := by
  have hclean : cleanGraph gC4 [] = gC4 := rfl
  have h2 : spC4 gC4 0 10 = some pathC4 := by simp [spC4]
  have h3 : calcRouteMetrics gC4 pathC4 = some (10, 10) := by
    norm_num [calcRouteMetrics, metricsAux, minByLenKey, Graph.edgesBetween,
      gC4, chainEdges, pathC4, speedFor, lenKeyLt,
      (by decide : ¬("secondary" = "motorway" ∨ "secondary" = "trunk" ∨
        "secondary" = "primary"))]
  have h5 : spC4 (removeMiddle gC4 pathC4) 0 10 = some altC4 := by
    simp only [spC4]
    rw [if_neg (by decide)]
  have h7 : calcRouteMetrics gC4 altC4 = some (8, 8) := by
    norm_num [calcRouteMetrics, metricsAux, minByLenKey, Graph.edgesBetween,
      gC4, chainEdges, altC4, speedFor, lenKeyLt,
      (by decide : ¬("secondary" = "motorway" ∨ "secondary" = "trunk" ∨
        "secondary" = "primary"))]
  have hres : findRoutes spC4 gC4 0 10 [] =
      some [⟨"Fastest Route", pathC4, 10, 10, "#00c853", "fastest"⟩,
            ⟨"Alternative Route", altC4, 8, 8, "#ffa726", "alternative"⟩] := by
    norm_num [findRoutes, hclean, h2, h3, h5, h7,
      (by decide : pathC4.length > 10), (by decide : ¬ (altC4 = pathC4))]
  exact findRoutes_alternative_metrics spC4 gC4 0 10 []
    ⟨"Fastest Route", pathC4, 10, 10, "#00c853", "fastest"⟩
    ⟨"Alternative Route", altC4, 8, 8, "#ffa726", "alternative"⟩ [] hres

/-- C7: route metrics accumulate, per consecutive node pair of the path, the
length of the minimum-length parallel edge (into total distance) and that
edge's travel time at 80 km/h for motorway/trunk/primary and 60 km/h for any
other class (into total time); the total distance is the summed meters
divided by 1000 and the total time is the summed hours times 60, both
nonnegative when all edge lengths are, and a zero-length edge contributes
zero to both. -/
theorem calcRouteMetrics_spec (g : Graph) (p : List ℕ)
    (hadj : pathPairsIn g p = true)
    (hlen : ∀ a ∈ g.edges, 0 ≤ a.2.length.getD 0) :
    calcRouteMetrics g p = some
      (((pathPairs p).map fun uv => selLen g uv.1 uv.2).sum / 1000,
       ((pathPairs p).map fun uv => selTimeH g uv.1 uv.2).sum * 60) ∧
    (∀ uv ∈ pathPairs p, ∃ e, selEdge g uv.1 uv.2 = some e ∧
        selLen g uv.1 uv.2 = e.2.length.getD 0 ∧
        selTimeH g uv.1 uv.2 = (e.2.length.getD 0 / 1000) /
          (if e.2.highway = "motorway" ∨ e.2.highway = "trunk" ∨
              e.2.highway = "primary" then 80 else 60) ∧
        (e.2.length.getD 0 = 0 →
          selLen g uv.1 uv.2 = 0 ∧ selTimeH g uv.1 uv.2 = 0)) ∧
    0 ≤ ((pathPairs p).map fun uv => selLen g uv.1 uv.2).sum / 1000 ∧
    0 ≤ ((pathPairs p).map fun uv => selTimeH g uv.1 uv.2).sum * 60 := by
  have hall : ∀ uv ∈ pathPairs p, g.hasEdgePair uv.1 uv.2 = true := by
    simpa [pathPairsIn, List.all_eq_true] using hadj
  refine ⟨?_, ?_, ?_, ?_⟩
  · rw [calcRouteMetrics, metricsAux_eq_sums hadj]
    rfl
  · intro uv huv
    obtain ⟨e, he⟩ := selEdge_isSome (hall uv huv)
    refine ⟨e, he, by simp [selLen, he], ?_, ?_⟩
    · simp [selTimeH, he, speedFor]
    · intro h0
      exact ⟨by simp [selLen, he, h0], by simp [selTimeH, he, h0, zero_div]⟩
  · refine div_nonneg (List.sum_nonneg ?_) (by norm_num)
    intro q hq
    simp only [List.mem_map] at hq
    obtain ⟨uv, huv, rfl⟩ := hq
    exact selLen_nonneg hlen uv.1 uv.2
  · refine mul_nonneg (List.sum_nonneg ?_) (by norm_num)
    intro q hq
    simp only [List.mem_map] at hq
    obtain ⟨uv, huv, rfl⟩ := hq
    exact selTimeH_nonneg hlen uv.1 uv.2

/-- Witness for C7 on `gC1` with the two-node path. -/
theorem calcRouteMetrics_spec_witness :
    calcRouteMetrics gC1 [0, 1] = some
      (((pathPairs [0, 1]).map fun uv => selLen gC1 uv.1 uv.2).sum / 1000,
       ((pathPairs [0, 1]).map fun uv => selTimeH gC1 uv.1 uv.2).sum * 60) ∧
    (∀ uv ∈ pathPairs [0, 1], ∃ e, selEdge gC1 uv.1 uv.2 = some e ∧
        selLen gC1 uv.1 uv.2 = e.2.length.getD 0 ∧
        selTimeH gC1 uv.1 uv.2 = (e.2.length.getD 0 / 1000) /
          (if e.2.highway = "motorway" ∨ e.2.highway = "trunk" ∨
              e.2.highway = "primary" then 80 else 60) ∧
        (e.2.length.getD 0 = 0 →
          selLen gC1 uv.1 uv.2 = 0 ∧ selTimeH gC1 uv.1 uv.2 = 0)) ∧
    0 ≤ ((pathPairs [0, 1]).map fun uv => selLen gC1 uv.1 uv.2).sum / 1000 ∧
    0 ≤ ((pathPairs [0, 1]).map fun uv => selTimeH gC1 uv.1 uv.2).sum * 60 :=
  calcRouteMetrics_spec gC1 [0, 1] (by decide) (by decide)

/-- C10: a consecutive pair whose selected parallel edge has no recorded
length contributes 0 to both total distance and total time, even though the
selection step treats a missing length as infinite, so an edge with a
recorded length is preferred over one without; and metrics never fail on
edges lacking a length attribute (any adjacent path still yields a result). -/
theorem calcRouteMetrics_missing_length (g : Graph) (u v : ℕ) (p : List ℕ)
    (hadj : pathPairsIn g p = true) :
    (∀ e, selEdge g u v = some e → e.2.length = none →
        selLen g u v = 0 ∧ selTimeH g u v = 0) ∧
    ((∃ a ∈ g.edgesBetween u v, a.2.length ≠ none) →
        ∀ e, selEdge g u v = some e → e.2.length ≠ none) ∧
    (calcRouteMetrics g p).isSome = true := by
  refine ⟨?_, ?_, ?_⟩
  · intro e he hnone
    exact ⟨by simp [selLen, he, hnone], by simp [selTimeH, he, hnone, zero_div]⟩
  · intro hex e he
    exact minByLenKey_prefers_recorded hex he
  · rw [calcRouteMetrics, metricsAux_eq_sums hadj]
    rfl

/-- Witness for C10 on `gMix`, whose pair 0→1 has one edge without a length
and one 700 m primary edge. -/
theorem calcRouteMetrics_missing_length_witness :
    (∀ e, selEdge gMix 0 1 = some e → e.2.length = none →
        selLen gMix 0 1 = 0 ∧ selTimeH gMix 0 1 = 0) ∧
    ((∃ a ∈ gMix.edgesBetween 0 1, a.2.length ≠ none) →
        ∀ e, selEdge gMix 0 1 = some e → e.2.length ≠ none) ∧
    (calcRouteMetrics gMix [0, 1]).isSome = true :=
  calcRouteMetrics_missing_length gMix 0 1 [0, 1] (by decide)

/-! ## Helper lemmas for the damage-simulation accounting -/

theorem blockEdgesAux_cons (g : Graph) (e : EdgeId) (rest bl : List EdgeId) (c : ℕ) :
    ∃ d : List EdgeId,
      blockEdgesAux g (e :: rest) (bl, c) = blockEdgesAux g rest (bl ++ d, c + d.length) ∧
      d.Nodup ∧ (∀ z ∈ d, z ∉ bl) ∧
      ∀ z ∈ d, z = e ∨
        (z = (e.2.1, e.1, e.2.2) ∧ g.hasEdge e.2.1 e.1 e.2.2 = true) := by
  by_cases he : e ∈ bl
  · by_cases hrev : g.hasEdge e.2.1 e.1 e.2.2 = true ∧ (e.2.1, e.1, e.2.2) ∉ bl
    · refine ⟨[(e.2.1, e.1, e.2.2)], ?_, by simp, by simpa using hrev.2, ?_⟩
      · simp [blockEdgesAux, he, hrev.1, hrev.2]
      · intro z hz
        rw [List.mem_singleton] at hz
        subst hz
        exact Or.inr ⟨rfl, hrev.1⟩
    · refine ⟨[], ?_, List.nodup_nil, by simp, by simp⟩
      simp [blockEdgesAux, he, hrev]
  · by_cases hrev : g.hasEdge e.2.1 e.1 e.2.2 = true ∧ (e.2.1, e.1, e.2.2) ∉ bl ++ [e]
    · have hne : (e.2.1, e.1, e.2.2) ≠ e := by
        intro hEq
        apply hrev.2
        rw [hEq]
        exact List.mem_append_right bl (List.mem_singleton.mpr rfl)
      refine ⟨[e, (e.2.1, e.1, e.2.2)], ?_, ?_, ?_, ?_⟩
      · have hrev2 : (e.2.1, e.1, e.2.2) ∉ bl := fun hmem =>
          hrev.2 (List.mem_append_left _ hmem)
        simp [blockEdgesAux, he, hrev.1, hrev2, hne]
      · simp only [List.nodup_cons, List.mem_singleton, List.nodup_nil, and_true,
          List.not_mem_nil, not_false_iff]
        exact fun h => hne h.symm
      · intro z hz
        rcases List.mem_cons.mp hz with rfl | hz2
        · exact he
        · rw [List.mem_singleton] at hz2
          subst hz2
          intro hmem
          exact hrev.2 (List.mem_append_left _ hmem)
      · intro z hz
        rcases List.mem_cons.mp hz with rfl | hz2
        · exact Or.inl rfl
        · rw [List.mem_singleton] at hz2
          subst hz2
          exact Or.inr ⟨rfl, hrev.1⟩
    · refine ⟨[e], ?_, by simp, by simpa using he, ?_⟩
      · have hrev2 : ¬(g.hasEdge e.2.1 e.1 e.2.2 = true ∧
            ¬(e.2.1, e.1, e.2.2) ∈ bl ∧ ¬(e.2.1, e.1, e.2.2) = e) := by
          simpa using hrev
        simp [blockEdgesAux, he, hrev2]
      · intro z hz
        rw [List.mem_singleton] at hz
        subst hz
        exact Or.inl rfl

theorem blockEdgesAux_newly (g : Graph) :
    ∀ (sel bl : List EdgeId) (c : ℕ),
      ∃ news : List EdgeId,
        blockEdgesAux g sel (bl, c) = (bl ++ news, c + news.length) ∧
        news.Nodup ∧ (∀ z ∈ news, z ∉ bl) ∧
        ∀ z ∈ news, z ∈ sel ∨
          ∃ e ∈ sel, z = (e.2.1, e.1, e.2.2) ∧ g.hasEdge e.2.1 e.1 e.2.2 = true := by
  intro sel
  induction sel with
  | nil =>
      intro bl c
      exact ⟨[], by simp [blockEdgesAux], List.nodup_nil, by simp, by simp⟩
  | cons e rest ih =>
      intro bl c
      obtain ⟨d, hstep, hdnd, hdfresh, hdorig⟩ := blockEdgesAux_cons g e rest bl c
      obtain ⟨news2, hrest, hnd2, hfresh2, horig2⟩ := ih (bl ++ d) (c + d.length)
      refine ⟨d ++ news2, ?_, ?_, ?_, ?_⟩
      · rw [hstep, hrest]
        simp [List.append_assoc, Nat.add_assoc]
      · refine hdnd.append hnd2 ?_
        intro a had ha2
        exact hfresh2 a ha2 (List.mem_append_right bl had)
      · intro z hz
        rcases List.mem_append.mp hz with hzd | hz2
        · exact hdfresh z hzd
        · intro hzbl
          exact hfresh2 z hz2 (List.mem_append_left d hzbl)
      · intro z hz
        rcases List.mem_append.mp hz with hzd | hz2
        · rcases hdorig z hzd with rfl | ⟨hzz, hge⟩
          · exact Or.inl (List.mem_cons_self _ _)
          · exact Or.inr ⟨e, List.mem_cons_self _ _, hzz, hge⟩
        · rcases horig2 z hz2 with hmem | ⟨f, hf, hzz, hge⟩
          · exact Or.inl (List.mem_cons_of_mem e hmem)
          · exact Or.inr ⟨f, List.mem_cons_of_mem e hf, hzz, hge⟩

theorem processImpact_spec (g : Graph) (y x : ℕ → ℚ) (majors bl : List EdgeId)
    (ilat ilon : ℚ) (k : ℕ) :
    ∃ news : List EdgeId,
      processImpact g y x majors bl ilat ilon k = (bl ++ news, news.length) ∧
      news.Nodup ∧ (∀ z ∈ news, z ∉ bl) ∧
      ∀ z ∈ news,
        z ∈ ((sortByDist (impactCandidates y x majors bl ilat ilon)).take k).map
            Prod.fst ∨
        ∃ e ∈ ((sortByDist (impactCandidates y x majors bl ilat ilon)).take k).map
            Prod.fst,
          z = (e.2.1, e.1, e.2.2) ∧ g.hasEdge e.2.1 e.1 e.2.2 = true := by
  obtain ⟨news, h, hnd, hf, ho⟩ := blockEdgesAux_newly g
    (((sortByDist (impactCandidates y x majors bl ilat ilon)).take k).map
      (fun p => p.1)) bl 0
  refine ⟨news, ?_, hnd, hf, ?_⟩
  · rw [processImpact, h]
    simp
  · simpa using ho

theorem impactCandidates_not_blocked (y x : ℕ → ℚ) (majors bl : List EdgeId)
    (ilat ilon : ℚ) :
    ∀ c ∈ impactCandidates y x majors bl ilat ilon, c.1 ∉ bl := by
  intro c hc
  simp only [impactCandidates, List.mem_filterMap] at hc
  obtain ⟨e, he, heq⟩ := hc
  by_cases hb : e ∈ bl
  · rw [if_pos hb] at heq
    cases heq
  · rw [if_neg hb] at heq
    split at heq
    · injection heq with h2
      subst h2
      exact hb
    · cases heq

theorem blockStep_eval (g : Graph) (y x : ℕ → ℚ) (majors : List EdgeId)
    (bl : List EdgeId) (zones : List ImpactZone) (imp : ℚ × ℚ × ℕ) :
    ∃ news : List EdgeId,
      blockStep g y x majors (bl, zones) imp =
        (bl ++ news, zones ++ [⟨imp.1, imp.2.1, news.length⟩]) ∧
      news.Nodup ∧ ∀ z ∈ news, z ∉ bl := by
  obtain ⟨news, hproc, hnd, hfresh, -⟩ :=
    processImpact_spec g y x majors bl imp.1 imp.2.1 imp.2.2
  exact ⟨news, by simp [blockStep, hproc], hnd, hfresh⟩

theorem blockRoads_fold_invariant (g : Graph) (y x : ℕ → ℚ) (majors : List EdgeId) :
    ∀ (impacts : List (ℚ × ℚ × ℕ)) (bl : List EdgeId) (zones : List ImpactZone),
      bl.Nodup →
      (impacts.foldl (blockStep g y x majors) (bl, zones)).1.Nodup ∧
      ((impacts.foldl (blockStep g y x majors) (bl, zones)).2.map
          ImpactZone.roads_damaged).sum + bl.length =
        (zones.map ImpactZone.roads_damaged).sum +
          (impacts.foldl (blockStep g y x majors) (bl, zones)).1.length := by
  intro impacts
  induction impacts with
  | nil => intro bl zones hnd; exact ⟨hnd, rfl⟩
  | cons imp rest ih =>
      intro bl zones hnd
      obtain ⟨news, hstep, hnd2, hfresh⟩ := blockStep_eval g y x majors bl zones imp
      have hblnd : (bl ++ news).Nodup :=
        hnd.append hnd2 (fun a ha ha2 => hfresh a ha2 ha)
      have hfold : (imp :: rest).foldl (blockStep g y x majors) (bl, zones)
          = rest.foldl (blockStep g y x majors)
              (bl ++ news, zones ++ [⟨imp.1, imp.2.1, news.length⟩]) := by
        rw [List.foldl_cons, hstep]
      obtain ⟨ih1, ih2⟩ :=
        ih (bl ++ news) (zones ++ [⟨imp.1, imp.2.1, news.length⟩]) hblnd
      rw [hfold]
      refine ⟨ih1, ?_⟩
      rw [List.map_append, List.sum_append, List.length_append] at ih2
      simp only [List.map_cons, List.map_nil, List.sum_cons, List.sum_nil] at ih2
      omega

/-- C6: in the damage simulation, the candidate set of each impact excludes
edges already blocked earlier in the batch; the per-impact processing grows
the blocked list by exactly a duplicate-free batch of new identifiers — each
either a selected forward edge or an existing reverse of a selected edge,
none previously blocked — and records precisely their number as the impact's
damage count; consequently over a whole batch no direction is ever counted
twice: the recorded damage counts sum to the size of the final blocked list,
which is duplicate-free. -/
theorem blockRoads_damage_count (g : Graph) (y x : ℕ → ℚ) (majors bl : List EdgeId)
    (ilat ilon : ℚ) (k : ℕ) (impacts : List (ℚ × ℚ × ℕ)) :
    (∀ c ∈ impactCandidates y x majors bl ilat ilon, c.1 ∉ bl) ∧
    (∃ news : List EdgeId,
      processImpact g y x majors bl ilat ilon k = (bl ++ news, news.length) ∧
      news.Nodup ∧ (∀ z ∈ news, z ∉ bl) ∧
      ∀ z ∈ news,
        z ∈ ((sortByDist (impactCandidates y x majors bl ilat ilon)).take k).map
            Prod.fst ∨
        ∃ e ∈ ((sortByDist (impactCandidates y x majors bl ilat ilon)).take k).map
            Prod.fst,
          z = (e.2.1, e.1, e.2.2) ∧ g.hasEdge e.2.1 e.1 e.2.2 = true) ∧
    ((blockRoads g y x majors impacts).2.map ImpactZone.roads_damaged).sum =
      (blockRoads g y x majors impacts).1.length ∧
    (blockRoads g y x majors impacts).1.Nodup := by
  have h := blockRoads_fold_invariant g y x majors impacts [] [] List.nodup_nil
  refine ⟨impactCandidates_not_blocked y x majors bl ilat ilon,
    processImpact_spec g y x majors bl ilat ilon k, ?_, ?_⟩
  · rw [blockRoads]
    simpa using h.2
  · rw [blockRoads]
    exact h.1

/-- Witness for C6 at a concrete one-impact batch on `gC1`. -/
theorem blockRoads_damage_count_witness :
    (∀ c ∈ impactCandidates (fun _ => 0) (fun _ => 0) [(0, 1, 0)] [] 0 0, c.1 ∉ []) ∧
    (∃ news : List EdgeId,
      processImpact gC1 (fun _ => 0) (fun _ => 0) [(0, 1, 0)] [] 0 0 2 =
        ([] ++ news, news.length) ∧
      news.Nodup ∧ (∀ z ∈ news, z ∉ ([] : List EdgeId)) ∧
      ∀ z ∈ news,
        z ∈ ((sortByDist (impactCandidates (fun _ => 0) (fun _ => 0) [(0, 1, 0)]
            [] 0 0)).take 2).map Prod.fst ∨
        ∃ e ∈ ((sortByDist (impactCandidates (fun _ => 0) (fun _ => 0) [(0, 1, 0)]
            [] 0 0)).take 2).map Prod.fst,
          z = (e.2.1, e.1, e.2.2) ∧ gC1.hasEdge e.2.1 e.1 e.2.2 = true) ∧
    ((blockRoads gC1 (fun _ => 0) (fun _ => 0) [(0, 1, 0)] [(0, 0, 2)]).2.map
        ImpactZone.roads_damaged).sum =
      (blockRoads gC1 (fun _ => 0) (fun _ => 0) [(0, 1, 0)] [(0, 0, 2)]).1.length ∧
    (blockRoads gC1 (fun _ => 0) (fun _ => 0) [(0, 1, 0)] [(0, 0, 2)]).1.Nodup :=
  blockRoads_damage_count gC1 (fun _ => 0) (fun _ => 0) [(0, 1, 0)] [] 0 0 2
    [(0, 0, 2)]

end Ambulance
